import Mathlib

/-!
Verification of the transaction coordinator of `runs/transaction/transaction.py`:
the typed operation queues, the natural-sort key function `natural_keys`, and the
three-phase (sort → validate → execute) commit protocol of `Transaction.__exit__`,
together with the scoped enter/exit lifecycle and the record-adding methods.
-/

/-- A sort-key token, as produced by `natural_keys`: each chunk of
`re.split('(\d+)', text)` becomes `int(c)` if it is a digit run, else stays a
string. -/
inductive Token
  | str (s : String)
  | num (n : Nat)
deriving DecidableEq, Repr

/-- Embedding of `re.split('(\d+)', text)` on a character list: the chunks alternate
(digit-free run, maximal digit run, digit-free run, ...), starting and ending
with a possibly empty digit-free run.  Structural recursion on the text:
a non-digit character extends the leading digit-free chunk; a digit character
extends the leading digit run when the split of the tail starts with one
(i.e. the tail begins with a digit), and otherwise opens a fresh digit run
preceded by an empty digit-free chunk. -/
def splitDigits : List Char → List (List Char)
  | [] => [[]]
  | c :: cs =>
    if c.isDigit then
      match splitDigits cs with
      | [] :: (d :: ds) :: rest => [] :: (c :: d :: ds) :: rest
      | chunks => [] :: [c] :: chunks
    else
      match splitDigits cs with
      | [] => [[c]]
      | nd :: rest => (c :: nd) :: rest

/-- Python `int(...)` on a (nonempty, all-digit) chunk. -/
def parseNat (cs : List Char) : Nat :=
  cs.foldl (fun n c => n * 10 + (c.toNat - 48)) 0

/-- Python `c.isdigit()` on a chunk: nonempty and all digits. -/
def pyIsDigitChunk (cs : List Char) : Bool :=
  !cs.isEmpty && cs.all Char.isDigit

/-- Python `int(c) if c.isdigit() else c` applied to one chunk of the split. -/
def chunkToToken (cs : List Char) : Token :=
  if pyIsDigitChunk cs then Token.num (parseNat cs) else Token.str (String.mk cs)

/-- The function `natural_keys(text)` of `transaction.py`:
`[int(c) if c.isdigit() else c for c in re.split('(\d+)', text)]`. -/
def natural_keys (text : String) : List Token :=
  (splitDigits text.data).map chunkToToken

/-- Python `<` on strings: lexicographic comparison of Unicode code points,
a strict prefix is smaller. -/
def strLt : List Char → List Char → Bool
  | _, [] => false
  | [], _ :: _ => true
  | a :: as, b :: bs => decide (a.toNat < b.toNat) || (decide (a.toNat = b.toNat) && strLt as bs)

/-- Python `<` on two tokens of the same type; `False` on a type mismatch
(the well-typedness of every comparison actually performed is established
separately via `keyCmpOk`). -/
def tokLt : Token → Token → Bool
  | Token.str a, Token.str b => strLt a.data b.data
  | Token.num a, Token.num b => decide (a < b)
  | _, _ => false

/-- Python list `<` on two key lists: lexicographic, a strict prefix is
smaller. -/
def keyLt : List Token → List Token → Bool
  | _, [] => false
  | [], _ :: _ => true
  | a :: as, b :: bs => tokLt a b || (a == b && keyLt as bs)

/-- Whether Python's `<` on two tokens is well-typed (comparing an `int` with a
`str` raises `TypeError`). -/
def tokCmpOk : Token → Token → Bool
  | Token.str _, Token.str _ => true
  | Token.num _, Token.num _ => true
  | _, _ => false

/-- Whether Python's list comparison of two key lists runs without a
`TypeError`: it walks to the first index whose elements differ (`==` across
types is safely `False`) and applies `<` only there. -/
def keyCmpOk : List Token → List Token → Bool
  | [], _ => true
  | _, [] => true
  | a :: as, b :: bs => if a == b then keyCmpOk as bs else tokCmpOk a b

/-- Alternation invariant for key lists: starting in state `expectStr = true`,
tokens alternate `str`, `num`, `str`, ... — so `str` sits at even indices and
`num` at odd indices. -/
def alignedFrom : Bool → List Token → Bool
  | _, [] => true
  | true, Token.str _ :: rest => alignedFrom false rest
  | false, Token.num _ :: rest => alignedFrom true rest
  | _, _ => false

/-- Alternation invariant for the chunk lists produced by `splitDigits`:
digit-free chunks at even positions, nonempty all-digit chunks at odd
positions. -/
def chunksInv : Bool → List (List Char) → Bool
  | _, [] => true
  | true, chunk :: rest => chunk.all (fun c => !c.isDigit) && chunksInv false rest
  | false, chunk :: rest => pyIsDigitChunk chunk && chunksInv true rest

/-! ## The data model: operation records and the five typed queues -/

/-- Modelled from the spec: `RunEntry` (a new-run operation record);
`runs.run_entry.RunEntry` is an external collaborator; per §3 it is an
immutable value object with attributes path, full command string, commit
identifier, creation timestamp, description, and original invocation string
(paths are modelled by their string form). -/
structure RunEntry where
  path : String
  full_command : String
  commit : String
  datetime : String
  description : String
  input_command : String
deriving DecidableEq, Repr

/-- The `Move` record of `runs.transaction.move`: source path, destination path,
and the kill-tmux flag (fields as constructed by `Transaction.move`). -/
structure Move where
  src : String
  dest : String
  kill_tmux : Bool
deriving DecidableEq, Repr

/-- The `DescriptionChange` record of `runs.transaction.change_description`
(fields as constructed by `Transaction.change_description`). -/
structure DescriptionChange where
  path : String
  full_command : String
  old_description : String
  new_description : String
deriving DecidableEq, Repr

/-- One pending operation record.  Removal and interrupt queue entries are bare
paths (`Transaction.remove` / `Transaction.interrupt` add the `PurePath`
itself). -/
inductive Record
  | runEntry (e : RunEntry)
  | moveRec (m : Move)
  | descChange (d : DescriptionChange)
  | pathRec (p : String)
deriving DecidableEq, Repr

/-- Modelled from the spec: the sort key of `Transaction.__exit__` is
`natural_keys(str(x))`, and §4.3 specifies that "the record's path string is
tokenized"; the `str()` form of the external record classes is not part of
this repository, so each record's path string is taken per §4.3 (for a `Move`,
its source path; for a bare path record, the path itself). -/
def recordPathStr : Record → String
  | Record.runEntry e => e.path
  | Record.moveRec m => m.src
  | Record.descChange d => d.path
  | Record.pathRec p => p

/-- The sort key of one queued record: `natural_keys(str(x))`. -/
def recKey (r : Record) : List Token :=
  natural_keys (recordPathStr r)

/-- The comparison `sorted` uses, as a `≤`-style relation suitable for a
stable sort: `x` may stay before `y` iff `key(y) < key(x)` is false. -/
def recLe (x y : Record) : Bool :=
  !keyLt (recKey y) (recKey x)

/-- The relation `recLe` in `Prop` form. -/
def recLeP (x y : Record) : Prop :=
  recLe x y = true

instance : DecidableRel recLeP := fun x y => instDecidableEqBool (recLe x y) true

/-- Python `sorted(queue, key=lambda x: natural_keys(str(x)))`: `sorted` is a
stable ascending sort, modelled by stable insertion sort with respect to
`recLeP`. -/
def sortQueue (q : List Record) : List Record :=
  q.insertionSort recLeP

/-- The five operation kinds, in the declaration order of the `TransactionType`
namedtuple. -/
inductive Kind
  | description_change
  | interrupt
  | removal
  | move
  | new_run
deriving DecidableEq, Repr

/-- Iteration order of `for sub_transaction in self.sub_transactions`: the
`TransactionType` field order. -/
def kinds : List Kind :=
  [Kind.description_change, Kind.interrupt, Kind.removal, Kind.move, Kind.new_run]

/-- Position of a kind in the fixed enumeration order. -/
def kindIdx : Kind → Nat
  | Kind.description_change => 0
  | Kind.interrupt => 1
  | Kind.removal => 2
  | Kind.move => 3
  | Kind.new_run => 4

/-- The five queues owned by the coordinator's sub-transactions, one field per
`TransactionType` field. -/
structure Queues where
  description_change : List Record := []
  interrupt : List Record := []
  removal : List Record := []
  move : List Record := []
  new_run : List Record := []
deriving DecidableEq, Repr

/-- The queue of a given kind. -/
def Queues.get (t : Queues) : Kind → List Record
  | Kind.description_change => t.description_change
  | Kind.interrupt => t.interrupt
  | Kind.removal => t.removal
  | Kind.move => t.move
  | Kind.new_run => t.new_run

/-- Modelled from the spec: `SubTransaction.add` of
`runs.transaction.sub_transaction` is an external collaborator; per §4.2
"`add(record)` — appends `record` to the queue.  No validation performed at add
time ... No side effects." -/
def subAdd (q : List Record) (r : Record) : List Record :=
  q ++ [r]

/-- Method `Transaction.add_run`: builds a `RunEntry` from the parameters and adds it
to the new-run sub-transaction's queue. -/
def Transaction.add_run (t : Queues) (path full_command commit datetime description
    input_command : String) : Queues :=
  { t with new_run := subAdd t.new_run (Record.runEntry
      { path := path, full_command := full_command, commit := commit,
        datetime := datetime, description := description,
        input_command := input_command }) }

/-- Method `Transaction.move`: builds a `Move` and adds it to the move queue. -/
def Transaction.move (t : Queues) (src dest : String) (kill_tmux : Bool) : Queues :=
  { t with move := subAdd t.move (Record.moveRec
      { src := src, dest := dest, kill_tmux := kill_tmux }) }

/-- Method `Transaction.remove`: adds the path to the removal queue. -/
def Transaction.remove (t : Queues) (path : String) : Queues :=
  { t with removal := subAdd t.removal (Record.pathRec path) }

/-- Method `Transaction.interrupt`: adds the path to the interrupt queue. -/
def Transaction.interrupt (t : Queues) (path : String) : Queues :=
  { t with interrupt := subAdd t.interrupt (Record.pathRec path) }

/-- Method `Transaction.change_description`: builds a `DescriptionChange` and adds it
to the description-change queue. -/
def Transaction.change_description (t : Queues) (path full_command old_description
    new_description : String) : Queues :=
  { t with description_change := subAdd t.description_change (Record.descChange
      { path := path, full_command := full_command,
        old_description := old_description, new_description := new_description }) }

/-! ## The three-phase exit protocol of `Transaction.__exit__` -/

/-- Modelled from the spec: the bodies of the five concrete sub-transactions'
`validate()` and `execute(record)` live in external collaborator modules; per
§4.2/§7 `validate()` either succeeds or raises a `ValidationError`, and
`execute(record)` either performs its side effect or raises an
`ExecutionError`.  Their outcomes are abstracted as booleans. -/
structure SubBehavior where
  validateOk : Bool
  executeOk : Record → Bool

/-- One observable call made during the scoped transaction's lifetime. -/
inductive Event
  | sortEv (k : Kind)
  | validateEv (k : Kind)
  | executeEv (k : Kind) (r : Record)
  | dbEnterEv
  | dbExitEv
deriving DecidableEq, Repr

/-- An exception escaping a phase of `Transaction.__exit__`. -/
inductive PhaseError
  | validationError (k : Kind)
  | executionError (k : Kind) (r : Record)
deriving DecidableEq, Repr

/-- Whether an event is an `execute(record)` call. -/
def Event.isExec : Event → Bool
  | Event.executeEv _ _ => true
  | _ => false

/-- The kind a (sort/validate/execute) call event belongs to. -/
def eventKind : Event → Option Kind
  | Event.sortEv k => some k
  | Event.validateEv k => some k
  | Event.executeEv k _ => some k
  | Event.dbEnterEv => none
  | Event.dbExitEv => none

/-- The kind of an `execute` call event, `none` for every other event. -/
def execKindOf : Event → Option Kind
  | Event.executeEv k _ => some k
  | _ => none

/-- The sort phase: `st.queue = sorted(st.queue, key=lambda x:
natural_keys(str(x)))` for each sub-transaction whose queue is non-empty
(`if sub_transaction.queue:` skips empty queues untouched). -/
def sortedQueues (qs : Kind → List Record) : Kind → List Record :=
  fun k => if (qs k).isEmpty then qs k else sortQueue (qs k)

/-- The validate phase: `st.validate()` on each non-empty sub-transaction in
`TransactionType` order; a `ValidationError` aborts the loop and escapes. -/
def validatePhase (b : Kind → SubBehavior) (qs : Kind → List Record) :
    List Kind → List Event × Option PhaseError
  | [] => ([], none)
  | k :: ks =>
    if (qs k).isEmpty then
      validatePhase b qs ks
    else if (b k).validateOk then
      let rest := validatePhase b qs ks
      (Event.validateEv k :: rest.1, rest.2)
    else
      ([Event.validateEv k], some (PhaseError.validationError k))

/-- One sub-transaction's execute loop: `for x in st.queue: st.execute(x)`;
an `ExecutionError` aborts the loop and escapes. -/
def executeQueue (bk : SubBehavior) (k : Kind) : List Record → List Event × Option PhaseError
  | [] => ([], none)
  | r :: rs =>
    if bk.executeOk r then
      let rest := executeQueue bk k rs
      (Event.executeEv k r :: rest.1, rest.2)
    else
      ([Event.executeEv k r], some (PhaseError.executionError k r))

/-- The execute phase: the execute loop of each non-empty sub-transaction, in
`TransactionType` order; an escaping error aborts the remaining kinds. -/
def executePhase (b : Kind → SubBehavior) (qs : Kind → List Record) :
    List Kind → List Event × Option PhaseError
  | [] => ([], none)
  | k :: ks =>
    if (qs k).isEmpty then
      executePhase b qs ks
    else
      let this := executeQueue (b k) k (qs k)
      match this.2 with
      | some e => (this.1, some e)
      | none =>
        let rest := executePhase b qs ks
        (this.1 ++ rest.1, rest.2)

/-- The outcome of `Transaction.__exit__`: the calls it made, the exception it
let escape (if any), and whether `self.db.__exit__(*args)` ran. -/
structure ExitOutcome where
  events : List Event
  error : Option PhaseError
  dbExited : Bool
deriving DecidableEq, Repr

/-- Embedding of `Transaction.__exit__`: runs the sort, validate and execute phases — each
phase visiting the sub-transactions in `TransactionType` order and skipping
those with empty queues — and then `self.db.__exit__(*args)`.  An exception
escaping a phase aborts everything after it, so `db.__exit__` runs only when
all three phases complete. -/
def transactionExit (b : Kind → SubBehavior) (qs : Kind → List Record) : ExitOutcome :=
  let sorted := sortedQueues qs
  let sortEvs := (kinds.filter (fun k => !(qs k).isEmpty)).map Event.sortEv
  let vres := validatePhase b sorted kinds
  match vres.2 with
  | some e => { events := sortEvs ++ vres.1, error := some e, dbExited := false }
  | none =>
    let eres := executePhase b sorted kinds
    match eres.2 with
    | some e => { events := sortEvs ++ vres.1 ++ eres.1, error := some e, dbExited := false }
    | none =>
      { events := sortEvs ++ vres.1 ++ eres.1 ++ [Event.dbExitEv], error := none,
        dbExited := true }

/-- The exception the caller of a scoped transaction observes. -/
inductive ScopeError
  | callerError
  | phase (e : PhaseError)
deriving DecidableEq, Repr

/-- The whole `with Transaction(...)` scope: `__enter__` opens the database
session; the body populates the queues and may raise; the `with` statement then
invokes `__exit__` exactly once.  `__exit__` returns a falsy value, so when its
phases finish the original body error (if any) propagates; an exception raised
inside `__exit__` itself replaces the body error. -/
def scopedRun (b : Kind → SubBehavior) (qs : Kind → List Record) (callerRaises : Bool) :
    List Event × Option ScopeError :=
  let o := transactionExit b qs
  (Event.dbEnterEv :: o.events,
    match o.error with
    | some e => some (ScopeError.phase e)
    | none => if callerRaises then some ScopeError.callerError else none)

/-- A behavior family in which every `validate` and every `execute`
succeeds. -/
def allOk : Kind → SubBehavior :=
  fun _ => { validateOk := true, executeOk := fun _ => true }

/-! ## Order-theoretic facts about the natural sort key -/

theorem charToNat_inj {a b : Char} (h : a.toNat = b.toNat) : a = b := by
  simpa [Char.ext_iff, UInt32.ext_iff] using h

theorem strLt_asymm : ∀ as bs, strLt as bs = true → strLt bs as = false := by
  intro as
  induction as with
  | nil => intro bs _; cases bs <;> rfl
  | cons a as ih =>
    intro bs h
    cases bs with
    | nil => simp [strLt] at h
    | cons b bs =>
      simp only [strLt, Bool.or_eq_true, Bool.and_eq_true, decide_eq_true_eq] at h ⊢
      simp only [Bool.or_eq_false_iff, Bool.and_eq_false_iff, decide_eq_false_iff_not]
      rcases h with h | ⟨he, ht⟩
      · exact ⟨by omega, Or.inl (by omega)⟩
      · exact ⟨by omega, Or.inr (ih bs ht)⟩

theorem strLt_trans : ∀ as bs cs, strLt as bs = true → strLt bs cs = true →
    strLt as cs = true := by
  intro as
  induction as with
  | nil =>
    intro bs cs h1 h2
    cases bs with
    | nil => simp [strLt] at h1
    | cons b bs => cases cs with
      | nil => simp [strLt] at h2
      | cons c cs => rfl
  | cons a as ih =>
    intro bs cs h1 h2
    cases bs with
    | nil => simp [strLt] at h1
    | cons b bs =>
      cases cs with
      | nil => simp [strLt] at h2
      | cons c cs =>
        simp only [strLt, Bool.or_eq_true, Bool.and_eq_true, decide_eq_true_eq] at h1 h2 ⊢
        rcases h1 with h1 | ⟨he1, ht1⟩ <;> rcases h2 with h2 | ⟨he2, ht2⟩
        · exact Or.inl (by omega)
        · exact Or.inl (by omega)
        · exact Or.inl (by omega)
        · exact Or.inr ⟨by omega, ih bs cs ht1 ht2⟩

theorem strLt_conn : ∀ as bs, as ≠ bs → strLt as bs = true ∨ strLt bs as = true := by
  intro as
  induction as with
  | nil =>
    intro bs hne
    cases bs with
    | nil => exact absurd rfl hne
    | cons b bs => exact Or.inl rfl
  | cons a as ih =>
    intro bs hne
    cases bs with
    | nil => exact Or.inr rfl
    | cons b bs =>
      simp only [strLt, Bool.or_eq_true, Bool.and_eq_true, decide_eq_true_eq]
      rcases Nat.lt_trichotomy a.toNat b.toNat with h | h | h
      · exact Or.inl (Or.inl h)
      · have hab : a = b := charToNat_inj h
        have htne : as ≠ bs := by
          intro hc; exact hne (by rw [hab, hc])
        rcases ih bs htne with ht | ht
        · exact Or.inl (Or.inr ⟨h, ht⟩)
        · exact Or.inr (Or.inr ⟨h.symm, ht⟩)
      · exact Or.inr (Or.inl h)

theorem tokLt_asymm : ∀ a b, tokLt a b = true → tokLt b a = false := by
  intro a b h
  cases a <;> cases b <;> simp only [tokLt] at h ⊢
  · exact strLt_asymm _ _ h
  · simp only [decide_eq_true_eq] at h
    simp only [decide_eq_false_iff_not]
    omega

theorem tokLt_trans : ∀ a b c, tokLt a b = true → tokLt b c = true →
    tokLt a c = true := by
  intro a b c h1 h2
  cases a <;> cases b <;> cases c <;>
    simp only [tokLt, decide_eq_true_eq, Bool.false_eq_true] at h1 h2 ⊢
  · exact strLt_trans _ _ _ h1 h2
  · omega

theorem tokLt_irrefl : ∀ a, tokLt a a = false := by
  intro a
  cases ha : tokLt a a
  · rfl
  · have h2 := tokLt_asymm a a ha
    rw [ha] at h2
    exact h2

theorem tokLt_ne {a b : Token} (h : tokLt a b = true) : a ≠ b := by
  intro hc
  rw [hc, tokLt_irrefl] at h
  exact Bool.false_ne_true h

theorem keyLt_asymm : ∀ k1 k2, keyLt k1 k2 = true → keyLt k2 k1 = false := by
  intro k1
  induction k1 with
  | nil => intro k2 _; cases k2 <;> rfl
  | cons a as ih =>
    intro k2 h
    cases k2 with
    | nil => simp [keyLt] at h
    | cons b bs =>
      simp only [keyLt, Bool.or_eq_true, Bool.and_eq_true, beq_iff_eq] at h ⊢
      simp only [Bool.or_eq_false_iff, Bool.and_eq_false_iff, beq_eq_false_iff_ne, ne_eq]
      rcases h with h | ⟨he, ht⟩
      · exact ⟨tokLt_asymm _ _ h, Or.inl fun hc => tokLt_ne h hc.symm⟩
      · subst he
        exact ⟨tokLt_irrefl a, Or.inr (ih bs ht)⟩

theorem keyLt_irrefl : ∀ k, keyLt k k = false := by
  intro k
  cases hk : keyLt k k
  · rfl
  · have h2 := keyLt_asymm k k hk
    rw [hk] at h2
    exact h2

theorem keyLt_trans : ∀ k1 k2 k3, keyLt k1 k2 = true → keyLt k2 k3 = true →
    keyLt k1 k3 = true := by
  intro k1
  induction k1 with
  | nil =>
    intro k2 k3 h1 h2
    cases k2 with
    | nil => simp [keyLt] at h1
    | cons b bs => cases k3 with
      | nil => simp [keyLt] at h2
      | cons c cs => rfl
  | cons a as ih =>
    intro k2 k3 h1 h2
    cases k2 with
    | nil => simp [keyLt] at h1
    | cons b bs =>
      cases k3 with
      | nil => simp [keyLt] at h2
      | cons c cs =>
        simp only [keyLt, Bool.or_eq_true, Bool.and_eq_true, beq_iff_eq] at h1 h2 ⊢
        rcases h1 with h1 | ⟨he1, ht1⟩ <;> rcases h2 with h2 | ⟨he2, ht2⟩
        · exact Or.inl (tokLt_trans _ _ _ h1 h2)
        · subst he2; exact Or.inl h1
        · subst he1; exact Or.inl h2
        · subst he1; subst he2
          exact Or.inr ⟨rfl, ih bs cs ht1 ht2⟩

theorem keyLt_cons_of_tokLt {a b : Token} {as bs : List Token} (h : tokLt a b = true) :
    keyLt (a :: as) (b :: bs) = true := by
  simp [keyLt, h]

theorem keyLt_cons_self {a : Token} {as bs : List Token} (h : keyLt as bs = true) :
    keyLt (a :: as) (a :: bs) = true := by
  simp [keyLt, h]

/-- Connectivity of the key order on type-aligned keys: two distinct aligned
keys are strictly comparable in one direction. -/
theorem keyLt_conn_aligned : ∀ (k1 : List Token) (f : Bool) (k2 : List Token),
    alignedFrom f k1 = true → alignedFrom f k2 = true → k1 ≠ k2 →
    keyLt k1 k2 = true ∨ keyLt k2 k1 = true := by
  intro k1
  induction k1 with
  | nil =>
    intro f k2 _ _ hne
    cases k2 with
    | nil => exact absurd rfl hne
    | cons b bs => exact Or.inl rfl
  | cons a as ih =>
    intro f k2 h1 h2 hne
    cases k2 with
    | nil => exact Or.inr rfl
    | cons b bs =>
      cases f
      · cases a with
        | str s => simp [alignedFrom] at h1
        | num n1 =>
          cases b with
          | str t => simp [alignedFrom] at h2
          | num n2 =>
            simp only [alignedFrom] at h1 h2
            rcases Nat.lt_trichotomy n1 n2 with h | h | h
            · exact Or.inl (keyLt_cons_of_tokLt (by simp [tokLt, h]))
            · subst h
              have htne : as ≠ bs := fun hc => hne (by rw [hc])
              rcases ih true bs h1 h2 htne with ht | ht
              · exact Or.inl (keyLt_cons_self ht)
              · exact Or.inr (keyLt_cons_self ht)
            · exact Or.inr (keyLt_cons_of_tokLt (by simp [tokLt, h]))
      · cases a with
        | num n => simp [alignedFrom] at h1
        | str s1 =>
          cases b with
          | num m => simp [alignedFrom] at h2
          | str s2 =>
            simp only [alignedFrom] at h1 h2
            by_cases hs : s1 = s2
            · subst hs
              have htne : as ≠ bs := fun hc => hne (by rw [hc])
              rcases ih false bs h1 h2 htne with ht | ht
              · exact Or.inl (keyLt_cons_self ht)
              · exact Or.inr (keyLt_cons_self ht)
            · have hd : s1.data ≠ s2.data := fun hc => hs (by
                cases s1; cases s2; exact congrArg String.mk hc)
              rcases strLt_conn s1.data s2.data hd with h | h
              · exact Or.inl (keyLt_cons_of_tokLt (by simp [tokLt, h]))
              · exact Or.inr (keyLt_cons_of_tokLt (by simp [tokLt, h]))

/-- Python's list comparison of two type-aligned keys never hits an `int`
vs `str` comparison. -/
theorem keyCmpOk_of_aligned : ∀ (k1 : List Token) (f : Bool) (k2 : List Token),
    alignedFrom f k1 = true → alignedFrom f k2 = true → keyCmpOk k1 k2 = true := by
  intro k1
  induction k1 with
  | nil => intro f k2 _ _; cases k2 <;> rfl
  | cons a as ih =>
    intro f k2 h1 h2
    cases k2 with
    | nil => rfl
    | cons b bs =>
      cases f
      · cases a with
        | str s => simp [alignedFrom] at h1
        | num n1 =>
          cases b with
          | str t => simp [alignedFrom] at h2
          | num n2 =>
            simp only [alignedFrom] at h1 h2
            simp only [keyCmpOk]
            by_cases hab : Token.num n1 = Token.num n2
            · simp only [hab, beq_self_eq_true, if_true]
              exact ih true bs h1 h2
            · simp [hab, tokCmpOk]
      · cases a with
        | num n => simp [alignedFrom] at h1
        | str s1 =>
          cases b with
          | num m => simp [alignedFrom] at h2
          | str s2 =>
            simp only [alignedFrom] at h1 h2
            simp only [keyCmpOk]
            by_cases hab : Token.str s1 = Token.str s2
            · simp only [hab, beq_self_eq_true, if_true]
              exact ih false bs h1 h2
            · simp [hab, tokCmpOk]

/-! ## The `splitDigits` alternation invariant -/

theorem splitDigits_ne_nil : ∀ cs, splitDigits cs ≠ [] := by
  intro cs
  cases cs with
  | nil => simp [splitDigits]
  | cons c cs' =>
    simp only [splitDigits]
    split
    · split <;> simp
    · split <;> simp

theorem chunksInv_splitDigits : ∀ cs, chunksInv true (splitDigits cs) = true := by
  intro cs
  induction cs with
  | nil => rfl
  | cons c cs ih =>
    simp only [splitDigits]
    split
    · rename_i hdig
      split
      · rename_i d ds rest heq
        rw [heq] at ih
        simp only [chunksInv, pyIsDigitChunk, List.all_cons, List.all_nil,
          List.isEmpty_cons, Bool.and_eq_true, Bool.not_eq_true'] at ih ⊢
        simp_all
      · rw [chunksInv, chunksInv]
        simp [pyIsDigitChunk, hdig, ih]
    · rename_i hdig
      split
      · rename_i heq
        exact absurd heq (splitDigits_ne_nil cs)
      · rename_i nd rest heq
        rw [heq] at ih
        simp only [chunksInv, List.all_cons, Bool.and_eq_true] at ih ⊢
        simp_all

theorem aligned_of_chunksInv : ∀ (chunks : List (List Char)) (f : Bool),
    chunksInv f chunks = true → alignedFrom f (chunks.map chunkToToken) = true := by
  intro chunks
  induction chunks with
  | nil => intro f _; cases f <;> rfl
  | cons chunk rest ih =>
    intro f h
    cases f
    · simp only [chunksInv, Bool.and_eq_true] at h
      obtain ⟨h1, h2⟩ := h
      simp only [List.map]
      rw [show chunkToToken chunk = Token.num (parseNat chunk) by simp [chunkToToken, h1]]
      simpa only [alignedFrom] using ih true h2
    · simp only [chunksInv, Bool.and_eq_true] at h
      obtain ⟨h1, h2⟩ := h
      have hne : pyIsDigitChunk chunk = false := by
        cases chunk with
        | nil => rfl
        | cons c cs =>
          simp only [List.all_cons, Bool.and_eq_true, Bool.not_eq_true'] at h1
          simp [pyIsDigitChunk, h1.1]
      simp only [List.map]
      rw [show chunkToToken chunk = Token.str (String.mk chunk) by simp [chunkToToken, hne]]
      simpa only [alignedFrom] using ih false h2

/-- Every `natural_keys` output alternates: string tokens at even indices,
integer tokens at odd indices. -/
theorem aligned_natural_keys (s : String) : alignedFrom true (natural_keys s) = true :=
  aligned_of_chunksInv _ true (chunksInv_splitDigits s.data)

theorem recKey_aligned (r : Record) : alignedFrom true (recKey r) = true :=
  aligned_natural_keys _

/-! ## `recLeP` is a total preorder, so the stable sort behaves -/

instance : IsTotal Record recLeP := ⟨by
  intro a b
  unfold recLeP recLe
  cases h : keyLt (recKey b) (recKey a)
  · exact Or.inl rfl
  · simp [keyLt_asymm _ _ h]⟩

instance : IsTrans Record recLeP := ⟨by
  intro a b c hab hbc
  unfold recLeP recLe at hab hbc ⊢
  simp only [Bool.not_eq_true'] at hab hbc ⊢
  cases hca : keyLt (recKey c) (recKey a)
  · rfl
  · exfalso
    by_cases hcb : recKey c = recKey b
    · rw [hcb] at hca
      rw [hab] at hca
      exact Bool.false_ne_true hca
    · rcases keyLt_conn_aligned (recKey c) true (recKey b) (recKey_aligned c)
        (recKey_aligned b) hcb with h | h
      · rw [hbc] at h
        exact Bool.false_ne_true h
      · by_cases hba : recKey b = recKey a
        · rw [hba] at h
          have h4 := keyLt_asymm _ _ h
          rw [h4] at hca
          exact Bool.false_ne_true hca
        · rcases keyLt_conn_aligned (recKey b) true (recKey a) (recKey_aligned b)
            (recKey_aligned a) hba with h2 | h2
          · rw [hab] at h2
            exact Bool.false_ne_true h2
          · have h3 := keyLt_trans _ _ _ h2 h
            have h4 := keyLt_asymm _ _ h3
            rw [h4] at hca
            exact Bool.false_ne_true hca⟩

theorem sortQueue_sorted (q : List Record) : List.Sorted recLeP (sortQueue q) :=
  List.sorted_insertionSort recLeP q

theorem sortQueue_isEmpty (q : List Record) : (sortQueue q).isEmpty = q.isEmpty := by
  cases q with
  | nil => rfl
  | cons r rs =>
    have h := List.length_insertionSort recLeP (r :: rs)
    cases hq : sortQueue (r :: rs) with
    | nil =>
      rw [sortQueue] at hq
      rw [hq] at h
      simp at h
    | cons x xs => rfl

theorem sortedQueues_isEmpty (qs : Kind → List Record) (k : Kind) :
    (sortedQueues qs k).isEmpty = (qs k).isEmpty := by
  unfold sortedQueues
  split
  · rfl
  · exact sortQueue_isEmpty (qs k)

theorem mem_kinds (k : Kind) : k ∈ kinds := by
  cases k <;> simp [kinds]

/-! ## Shape lemmas for the three phase loops -/

theorem validatePhase_events_shape (b : Kind → SubBehavior) (qs : Kind → List Record) :
    ∀ (ks : List Kind) (e : Event), e ∈ (validatePhase b qs ks).1 →
      ∃ k, k ∈ ks ∧ e = Event.validateEv k ∧ (qs k).isEmpty = false := by
  intro ks
  induction ks with
  | nil => intro e he; simp [validatePhase] at he
  | cons k ks ih =>
    intro e he
    simp only [validatePhase] at he
    by_cases hk : (qs k).isEmpty = true
    · rw [if_pos hk] at he
      obtain ⟨k', hk', he', hq⟩ := ih e he
      exact ⟨k', List.mem_cons_of_mem _ hk', he', hq⟩
    · rw [if_neg hk] at he
      by_cases hv : (b k).validateOk = true
      · rw [if_pos hv] at he
        rcases List.mem_cons.mp he with rfl | hrest
        · exact ⟨k, List.mem_cons_self _ _, rfl, Bool.not_eq_true _ ▸ hk⟩
        · obtain ⟨k', hk', he', hq⟩ := ih e hrest
          exact ⟨k', List.mem_cons_of_mem _ hk', he', hq⟩
      · rw [if_neg hv] at he
        rcases List.mem_singleton.mp he with rfl
        exact ⟨k, List.mem_cons_self _ _, rfl, Bool.not_eq_true _ ▸ hk⟩

theorem validatePhase_err_shape (b : Kind → SubBehavior) (qs : Kind → List Record) :
    ∀ (ks : List Kind) (e : PhaseError), (validatePhase b qs ks).2 = some e →
      ∃ k, k ∈ ks ∧ e = PhaseError.validationError k ∧ (qs k).isEmpty = false ∧
        (b k).validateOk = false := by
  intro ks
  induction ks with
  | nil => intro e he; simp [validatePhase] at he
  | cons k ks ih =>
    intro e he
    simp only [validatePhase] at he
    by_cases hk : (qs k).isEmpty = true
    · rw [if_pos hk] at he
      obtain ⟨k', hk', he', hq, hv⟩ := ih e he
      exact ⟨k', List.mem_cons_of_mem _ hk', he', hq, hv⟩
    · rw [if_neg hk] at he
      by_cases hv : (b k).validateOk = true
      · rw [if_pos hv] at he
        obtain ⟨k', hk', he', hq, hv'⟩ := ih e he
        exact ⟨k', List.mem_cons_of_mem _ hk', he', hq, hv'⟩
      · rw [if_neg hv] at he
        simp only [Option.some.injEq] at he
        exact ⟨k, List.mem_cons_self _ _, he.symm, Bool.not_eq_true _ ▸ hk,
          Bool.not_eq_true _ ▸ hv⟩

theorem validatePhase_err_isSome (b : Kind → SubBehavior) (qs : Kind → List Record) :
    ∀ (ks : List Kind), (∃ k, k ∈ ks ∧ (qs k).isEmpty = false ∧ (b k).validateOk = false) →
      (validatePhase b qs ks).2.isSome = true := by
  intro ks
  induction ks with
  | nil => rintro ⟨k, hk, _, _⟩; simp at hk
  | cons k ks ih =>
    rintro ⟨k', hk', hq, hv⟩
    simp only [validatePhase]
    rcases List.mem_cons.mp hk' with rfl | hmem
    · rw [if_neg (by rw [hq]; exact Bool.false_ne_true)]
      rw [if_neg (by rw [hv]; exact Bool.false_ne_true)]
      rfl
    · by_cases hk : (qs k).isEmpty = true
      · rw [if_pos hk]
        exact ih ⟨k', hmem, hq, hv⟩
      · rw [if_neg hk]
        by_cases hvk : (b k).validateOk = true
        · rw [if_pos hvk]
          exact ih ⟨k', hmem, hq, hv⟩
        · rw [if_neg hvk]
          rfl

theorem executeQueue_events_shape (bk : SubBehavior) (k : Kind) :
    ∀ (rs : List Record) (e : Event), e ∈ (executeQueue bk k rs).1 →
      ∃ r, e = Event.executeEv k r := by
  intro rs
  induction rs with
  | nil => intro e he; simp [executeQueue] at he
  | cons r rs ih =>
    intro e he
    simp only [executeQueue] at he
    by_cases hx : bk.executeOk r = true
    · rw [if_pos hx] at he
      rcases List.mem_cons.mp he with rfl | hrest
      · exact ⟨r, rfl⟩
      · exact ih e hrest
    · rw [if_neg hx] at he
      rcases List.mem_singleton.mp he with rfl
      exact ⟨r, rfl⟩

theorem executePhase_events_shape (b : Kind → SubBehavior) (qs : Kind → List Record) :
    ∀ (ks : List Kind) (e : Event), e ∈ (executePhase b qs ks).1 →
      ∃ k r, k ∈ ks ∧ e = Event.executeEv k r ∧ (qs k).isEmpty = false := by
  intro ks
  induction ks with
  | nil => intro e he; simp [executePhase] at he
  | cons k ks ih =>
    intro e he
    simp only [executePhase] at he
    by_cases hk : (qs k).isEmpty = true
    · rw [if_pos hk] at he
      obtain ⟨k', r, hk', he', hq⟩ := ih e he
      exact ⟨k', r, List.mem_cons_of_mem _ hk', he', hq⟩
    · rw [if_neg hk] at he
      rcases hm : (executeQueue (b k) k (qs k)).2 with _ | err
      · rw [hm] at he
        simp only [List.mem_append] at he
        rcases he with he | he
        · obtain ⟨r, hr⟩ := executeQueue_events_shape (b k) k (qs k) e he
          exact ⟨k, r, List.mem_cons_self _ _, hr, Bool.not_eq_true _ ▸ hk⟩
        · obtain ⟨k', r, hk', he', hq⟩ := ih e he
          exact ⟨k', r, List.mem_cons_of_mem _ hk', he', hq⟩
      · rw [hm] at he
        obtain ⟨r, hr⟩ := executeQueue_events_shape (b k) k (qs k) e he
        exact ⟨k, r, List.mem_cons_self _ _, hr, Bool.not_eq_true _ ▸ hk⟩

theorem executeQueue_kinds (bk : SubBehavior) (k : Kind) (rs : List Record) :
    ∀ x ∈ (executeQueue bk k rs).1.filterMap execKindOf, x = k := by
  intro x hx
  rw [List.mem_filterMap] at hx
  obtain ⟨e, he, hxe⟩ := hx
  obtain ⟨r, rfl⟩ := executeQueue_events_shape bk k rs e he
  simp only [execKindOf, Option.some.injEq] at hxe
  exact hxe.symm

theorem executePhase_kinds_sub (b : Kind → SubBehavior) (qs : Kind → List Record)
    (ks : List Kind) : ∀ x ∈ (executePhase b qs ks).1.filterMap execKindOf, x ∈ ks := by
  intro x hx
  rw [List.mem_filterMap] at hx
  obtain ⟨e, he, hxe⟩ := hx
  obtain ⟨k', r, hk', rfl, _⟩ := executePhase_events_shape b qs ks e he
  simp only [execKindOf, Option.some.injEq] at hxe
  exact hxe ▸ hk'

theorem executePhase_kinds_pairwise (b : Kind → SubBehavior) (qs : Kind → List Record) :
    ∀ ks : List Kind, ks.Pairwise (fun a c => kindIdx a < kindIdx c) →
      ((executePhase b qs ks).1.filterMap execKindOf).Pairwise
        (fun a c => kindIdx a ≤ kindIdx c) := by
  intro ks
  induction ks with
  | nil => intro _; simp [executePhase]
  | cons k ks ih =>
    intro hp
    rw [List.pairwise_cons] at hp
    obtain ⟨hhead, htail⟩ := hp
    simp only [executePhase]
    by_cases hk : (qs k).isEmpty = true
    · rw [if_pos hk]
      exact ih htail
    · rw [if_neg hk]
      rcases hm : (executeQueue (b k) k (qs k)).2 with _ | err
      · simp only [hm]
        rw [List.filterMap_append, List.pairwise_append]
        refine ⟨List.pairwise_of_forall_mem_list ?_, ih htail, ?_⟩
        · intro a ha c hc
          rw [executeQueue_kinds (b k) k (qs k) a ha,
            executeQueue_kinds (b k) k (qs k) c hc]
        · intro a ha c hc
          rw [executeQueue_kinds (b k) k (qs k) a ha]
          exact Nat.le_of_lt (hhead c (executePhase_kinds_sub b qs ks c hc))
      · simp only [hm]
        refine List.pairwise_of_forall_mem_list ?_
        intro a ha c hc
        rw [executeQueue_kinds (b k) k (qs k) a ha,
          executeQueue_kinds (b k) k (qs k) c hc]

theorem sortEvs_execKinds_nil (qs : Kind → List Record) :
    ((kinds.filter (fun k => !(qs k).isEmpty)).map Event.sortEv).filterMap execKindOf = [] := by
  rw [List.filterMap_eq_nil_iff]
  intro e he
  rw [List.mem_map] at he
  obtain ⟨k, _, rfl⟩ := he
  rfl

theorem validatePhase_execKinds_nil (b : Kind → SubBehavior) (qs : Kind → List Record)
    (ks : List Kind) : (validatePhase b qs ks).1.filterMap execKindOf = [] := by
  rw [List.filterMap_eq_nil_iff]
  intro e he
  obtain ⟨k, _, rfl, _⟩ := validatePhase_events_shape b qs ks e he
  rfl

/-- Every `execute` call in the trace of `__exit__` carries its kind; the list
of those kinds is monotone in the fixed enumeration order. -/
theorem transactionExit_kinds_pairwise (b : Kind → SubBehavior) (qs : Kind → List Record) :
    ((transactionExit b qs).events.filterMap execKindOf).Pairwise
      (fun a c => kindIdx a ≤ kindIdx c) := by
  have hkp : kinds.Pairwise (fun a c => kindIdx a < kindIdx c) := by decide
  simp only [transactionExit]
  rcases hv : (validatePhase b (sortedQueues qs) kinds).2 with _ | e
  · rcases he : (executePhase b (sortedQueues qs) kinds).2 with _ | e2
    · simp only [hv, he, List.filterMap_append, sortEvs_execKinds_nil,
        validatePhase_execKinds_nil, List.nil_append]
      rw [show (([Event.dbExitEv] : List Event).filterMap execKindOf) = [] from rfl]
      rw [List.append_nil]
      exact executePhase_kinds_pairwise b (sortedQueues qs) kinds hkp
    · simp only [hv, he, List.filterMap_append, sortEvs_execKinds_nil,
        validatePhase_execKinds_nil, List.nil_append]
      exact executePhase_kinds_pairwise b (sortedQueues qs) kinds hkp
  · simp only [hv, List.filterMap_append, sortEvs_execKinds_nil,
      validatePhase_execKinds_nil, List.nil_append]
    exact List.Pairwise.nil

theorem dbExit_not_mem_sortEvs (qs : Kind → List Record) :
    Event.dbExitEv ∉ (kinds.filter (fun k => !(qs k).isEmpty)).map Event.sortEv := by
  intro hmem
  rw [List.mem_map] at hmem
  obtain ⟨k, _, hk⟩ := hmem
  exact Event.noConfusion hk

theorem dbExit_not_mem_validatePhase (b : Kind → SubBehavior) (qs : Kind → List Record)
    (ks : List Kind) : Event.dbExitEv ∉ (validatePhase b qs ks).1 := by
  intro hmem
  obtain ⟨k, _, hk, _⟩ := validatePhase_events_shape b qs ks _ hmem
  exact Event.noConfusion hk

theorem dbExit_not_mem_executePhase (b : Kind → SubBehavior) (qs : Kind → List Record)
    (ks : List Kind) : Event.dbExitEv ∉ (executePhase b qs ks).1 := by
  intro hmem
  obtain ⟨k, r, _, hk, _⟩ := executePhase_events_shape b qs ks _ hmem
  exact Event.noConfusion hk

/-- The call `self.db.__exit__(*args)` appears in the trace exactly when no phase raised,
and then exactly once. -/
theorem transactionExit_count_dbExit (b : Kind → SubBehavior) (qs : Kind → List Record) :
    (transactionExit b qs).events.count Event.dbExitEv =
      (if (transactionExit b qs).error = none then 1 else 0) := by
  rcases hv : (validatePhase b (sortedQueues qs) kinds).2 with _ | e
  · rcases he : (executePhase b (sortedQueues qs) kinds).2 with _ | e2
    · simp only [transactionExit, hv, he, List.count_append]
      rw [List.count_eq_zero.mpr (dbExit_not_mem_sortEvs qs),
        List.count_eq_zero.mpr (dbExit_not_mem_validatePhase b (sortedQueues qs) kinds),
        List.count_eq_zero.mpr (dbExit_not_mem_executePhase b (sortedQueues qs) kinds)]
      rfl
    · simp only [transactionExit, hv, he, List.count_append]
      rw [List.count_eq_zero.mpr (dbExit_not_mem_sortEvs qs),
        List.count_eq_zero.mpr (dbExit_not_mem_validatePhase b (sortedQueues qs) kinds),
        List.count_eq_zero.mpr (dbExit_not_mem_executePhase b (sortedQueues qs) kinds)]
      rfl
  · simp only [transactionExit, hv, List.count_append]
    rw [List.count_eq_zero.mpr (dbExit_not_mem_sortEvs qs),
      List.count_eq_zero.mpr (dbExit_not_mem_validatePhase b (sortedQueues qs) kinds)]
    rfl

/-- The `dbExited` flag is the Boolean form of "no phase raised". -/
theorem transactionExit_dbExited_iff (b : Kind → SubBehavior) (qs : Kind → List Record) :
    (transactionExit b qs).dbExited = true ↔ (transactionExit b qs).error = none := by
  rcases hv : (validatePhase b (sortedQueues qs) kinds).2 with _ | e
  · rcases he : (executePhase b (sortedQueues qs) kinds).2 with _ | e2
    · simp [transactionExit, hv, he]
    · simp [transactionExit, hv, he]
  · simp [transactionExit, hv]

/-- Every sort/validate/execute call recorded by `__exit__` belongs to a kind
whose queue was non-empty. -/
theorem transactionExit_event_kind_nonempty (b : Kind → SubBehavior)
    (qs : Kind → List Record) (e : Event) (k : Kind) :
    e ∈ (transactionExit b qs).events → eventKind e = some k →
    (qs k).isEmpty = false := by
  intro hmem hk
  have hsort : e ∈ (kinds.filter (fun k' => !(qs k').isEmpty)).map Event.sortEv →
      (qs k).isEmpty = false := by
    intro hm
    rw [List.mem_map] at hm
    obtain ⟨k', hk', rfl⟩ := hm
    simp only [eventKind, Option.some.injEq] at hk
    subst hk
    rw [List.mem_filter] at hk'
    simpa using hk'.2
  have hval : e ∈ (validatePhase b (sortedQueues qs) kinds).1 →
      (qs k).isEmpty = false := by
    intro hm
    obtain ⟨k', _, rfl, hq⟩ := validatePhase_events_shape b (sortedQueues qs) kinds e hm
    simp only [eventKind, Option.some.injEq] at hk
    subst hk
    rw [sortedQueues_isEmpty] at hq
    exact hq
  have hexe : e ∈ (executePhase b (sortedQueues qs) kinds).1 →
      (qs k).isEmpty = false := by
    intro hm
    obtain ⟨k', r, _, rfl, hq⟩ := executePhase_events_shape b (sortedQueues qs) kinds e hm
    simp only [eventKind, Option.some.injEq] at hk
    subst hk
    rw [sortedQueues_isEmpty] at hq
    exact hq
  rcases hv : (validatePhase b (sortedQueues qs) kinds).2 with _ | err
  · rcases he : (executePhase b (sortedQueues qs) kinds).2 with _ | err2
    · simp only [transactionExit, hv, he] at hmem
      simp only [List.mem_append, List.mem_singleton] at hmem
      rcases hmem with ((hm | hm) | hm) | hm
      · exact hsort hm
      · exact hval hm
      · exact hexe hm
      · subst hm; exact absurd hk (by simp [eventKind])
    · simp only [transactionExit, hv, he] at hmem
      simp only [List.mem_append] at hmem
      rcases hmem with (hm | hm) | hm
      · exact hsort hm
      · exact hval hm
      · exact hexe hm
  · simp only [transactionExit, hv] at hmem
    simp only [List.mem_append] at hmem
    rcases hmem with hm | hm
    · exact hsort hm
    · exact hval hm

/-! ## The claims -/

/-- C1: if any sub-transaction's `validate()` raises a `ValidationError` during
`Transaction.__exit__`, zero `execute` calls occur in every kind and the
error escapes `__exit__` to the caller. -/
theorem validate_failure_aborts_execution (b : Kind → SubBehavior)
    (qs : Kind → List Record) (h : ∃ k, qs k ≠ [] ∧ (b k).validateOk = false) :
    (transactionExit b qs).events.all (fun e => !e.isExec) = true ∧
    ∃ k', (transactionExit b qs).error = some (PhaseError.validationError k') := by
  obtain ⟨k, hq, hv⟩ := h
  have hqe : (qs k).isEmpty = false := by
    cases hqk : qs k with
    | nil => exact absurd hqk hq
    | cons x xs => rfl
  have hsome := validatePhase_err_isSome b (sortedQueues qs) kinds
    ⟨k, mem_kinds k, by rw [sortedQueues_isEmpty]; exact hqe, hv⟩
  obtain ⟨e, he⟩ := Option.isSome_iff_exists.mp hsome
  obtain ⟨k'', _, rfl, _, _⟩ := validatePhase_err_shape b (sortedQueues qs) kinds e he
  constructor
  · rw [List.all_eq_true]
    intro e' he'
    simp only [transactionExit, he] at he'
    rcases List.mem_append.mp he' with hm | hm
    · rw [List.mem_map] at hm
      obtain ⟨k', _, rfl⟩ := hm
      rfl
    · obtain ⟨k', _, rfl, _⟩ := validatePhase_events_shape b (sortedQueues qs) kinds e' hm
      rfl
  · exact ⟨k'', by simp only [transactionExit, he]⟩

theorem validate_failure_aborts_execution_witness :
    (transactionExit (fun _ => ⟨false, fun _ => true⟩)
        (fun _ => [Record.pathRec "a"])).events.all (fun e => !e.isExec) = true ∧
    ∃ k', (transactionExit (fun _ => ⟨false, fun _ => true⟩)
        (fun _ => [Record.pathRec "a"])).error = some (PhaseError.validationError k') :=
  validate_failure_aborts_execution (fun _ => ⟨false, fun _ => true⟩)
    (fun _ => [Record.pathRec "a"]) ⟨Kind.new_run, by decide, rfl⟩

/-- C2: execute calls across kinds happen in the fixed enumeration order
description-change, interrupt, removal, move, new-run: the sequence of kinds
of the `execute` calls in the `__exit__` trace is monotone in that order, so
every execute call of an earlier kind precedes every execute call of a later
kind. -/
theorem execute_kind_order (b : Kind → SubBehavior) (qs : Kind → List Record) :
    ((transactionExit b qs).events.filterMap execKindOf).Pairwise
      (fun a c => kindIdx a ≤ kindIdx c) :=
  transactionExit_kinds_pairwise b qs

/-- C3: the natural key splits a path string into alternating non-digit and
digit runs with digit runs as integers, and in every sorted queue each
occurrence of the record with path "run-2" comes before each occurrence of the
record with path "run-10". -/
theorem natural_sort_places_run2_first :
    natural_keys "run-2" = [Token.str "run-", Token.num 2, Token.str ""] ∧
    natural_keys "run-10" = [Token.str "run-", Token.num 10, Token.str ""] ∧
    ∀ (q : List Record) (i j : Fin (sortQueue q).length),
      (sortQueue q).get i = Record.pathRec "run-10" →
      (sortQueue q).get j = Record.pathRec "run-2" → (j : Nat) < (i : Nat) := by
  refine ⟨by decide, by decide, ?_⟩
  intro q i j hi hj
  by_contra hle
  push_neg at hle
  rcases Nat.lt_or_eq_of_le hle with hlt | heqn
  · have hs := sortQueue_sorted q
    rw [List.Sorted, List.pairwise_iff_get] at hs
    have hrel := hs i j (Fin.lt_def.mpr hlt)
    rw [hi, hj] at hrel
    exact absurd hrel (by decide)
  · have hij : i = j := Fin.ext heqn
    rw [hij, hj] at hi
    exact absurd hi (by decide)

theorem natural_sort_places_run2_first_witness : (0 : Nat) < 1 :=
  natural_sort_places_run2_first.2.2
    [Record.pathRec "run-10", Record.pathRec "run-2"]
    ⟨1, by decide⟩ ⟨0, by decide⟩ (by decide) (by decide)

/-- C4: with exactly one new-run record for path "exp/1" and one for
"exp/10" (in either insertion order) and all other queues empty, the exit
protocol makes exactly two `execute` calls, first with the "exp/1" record and
then with the "exp/10" record. -/
theorem new_run_scenario (fc cm dt ds ic fc2 cm2 dt2 ds2 ic2 : String) :
    (transactionExit allOk (Transaction.add_run
        (Transaction.add_run {} "exp/1" fc cm dt ds ic)
        "exp/10" fc2 cm2 dt2 ds2 ic2).get).events.filter Event.isExec =
      [Event.executeEv Kind.new_run (Record.runEntry ⟨"exp/1", fc, cm, dt, ds, ic⟩),
       Event.executeEv Kind.new_run
         (Record.runEntry ⟨"exp/10", fc2, cm2, dt2, ds2, ic2⟩)] ∧
    (transactionExit allOk (Transaction.add_run
        (Transaction.add_run {} "exp/10" fc2 cm2 dt2 ds2 ic2)
        "exp/1" fc cm dt ds ic).get).events.filter Event.isExec =
      [Event.executeEv Kind.new_run (Record.runEntry ⟨"exp/1", fc, cm, dt, ds, ic⟩),
       Event.executeEv Kind.new_run
         (Record.runEntry ⟨"exp/10", fc2, cm2, dt2, ds2, ic2⟩)] :=
  ⟨rfl, rfl⟩

/-- C5: sorting a queue by the natural key is idempotent. -/
theorem sortQueue_idempotent (q : List Record) :
    sortQueue (sortQueue q) = sortQueue q :=
  List.Sorted.insertionSort_eq (sortQueue_sorted q)

/-- C6: a sub-transaction whose queue is empty at scope exit is skipped by all
three phases: the sort phase leaves its queue untouched, and no
sort/validate/execute call of that kind appears in the trace. -/
theorem empty_queue_skipped (b : Kind → SubBehavior) (qs : Kind → List Record)
    (k : Kind) (h : qs k = []) :
    sortedQueues qs k = qs k ∧
    ∀ e ∈ (transactionExit b qs).events, eventKind e ≠ some k := by
  constructor
  · simp [sortedQueues, h]
  · intro e hmem hk
    have hne := transactionExit_event_kind_nonempty b qs e k hmem hk
    rw [h] at hne
    simp at hne

theorem empty_queue_skipped_witness :
    sortedQueues (fun k => if k = Kind.move then [Record.pathRec "x"] else [])
        Kind.new_run =
      (fun k => if k = Kind.move then [Record.pathRec "x"] else []) Kind.new_run ∧
    ∀ e ∈ (transactionExit allOk
        (fun k => if k = Kind.move then [Record.pathRec "x"] else [])).events,
      eventKind e ≠ some Kind.new_run :=
  empty_queue_skipped allOk
    (fun k => if k = Kind.move then [Record.pathRec "x"] else []) Kind.new_run (by decide)

/-- C7 counterexample: a caller error with a non-empty queue whose validation
fails leads to `__exit__` raising during its phases, so `db.__exit__` never
runs (zero finalizations, not exactly one) and the caller sees the validation
error instead of the original error. -/
theorem scoped_error_not_always_finalized :
    ((scopedRun (fun _ => ⟨false, fun _ => true⟩) (fun _ => [Record.pathRec "a"])
        true).1.count Event.dbExitEv = 0) ∧
    (scopedRun (fun _ => ⟨false, fun _ => true⟩) (fun _ => [Record.pathRec "a"])
        true).2 ≠ some ScopeError.callerError := by decide

/-- C7 (amended): when the exit phases raise no error, a caller error inside
the scope still leads to the database session being finalized exactly once and
the original error propagating to the caller. -/
theorem scoped_error_finalize_when_phases_ok (b : Kind → SubBehavior)
    (qs : Kind → List Record) (h : (transactionExit b qs).error = none) :
    (scopedRun b qs true).1.count Event.dbExitEv = 1 ∧
    (scopedRun b qs true).2 = some ScopeError.callerError := by
  have hc := transactionExit_count_dbExit b qs
  rw [h, if_pos rfl] at hc
  constructor
  · simp [scopedRun, List.count_cons, hc]
  · simp [scopedRun, h]

theorem scoped_error_finalize_when_phases_ok_witness :
    (scopedRun allOk (fun _ => []) true).1.count Event.dbExitEv = 1 ∧
    (scopedRun allOk (fun _ => []) true).2 = some ScopeError.callerError :=
  scoped_error_finalize_when_phases_ok allOk (fun _ => []) (by decide)

/-- C8: each record-adding method appends exactly one record, built from its
parameters, to the queue of its own kind, and leaves the other four queues
unchanged. -/
theorem add_methods_append (t : Queues) (p fc cm dt ds ic src dest : String)
    (kt : Bool) (p2 p3 p4 fc2 od nd : String) :
    (Transaction.add_run t p fc cm dt ds ic).new_run
        = t.new_run ++ [Record.runEntry ⟨p, fc, cm, dt, ds, ic⟩] ∧
    (Transaction.add_run t p fc cm dt ds ic).description_change = t.description_change ∧
    (Transaction.add_run t p fc cm dt ds ic).interrupt = t.interrupt ∧
    (Transaction.add_run t p fc cm dt ds ic).removal = t.removal ∧
    (Transaction.add_run t p fc cm dt ds ic).move = t.move ∧
    (Transaction.move t src dest kt).move = t.move ++ [Record.moveRec ⟨src, dest, kt⟩] ∧
    (Transaction.move t src dest kt).description_change = t.description_change ∧
    (Transaction.move t src dest kt).interrupt = t.interrupt ∧
    (Transaction.move t src dest kt).removal = t.removal ∧
    (Transaction.move t src dest kt).new_run = t.new_run ∧
    (Transaction.remove t p2).removal = t.removal ++ [Record.pathRec p2] ∧
    (Transaction.remove t p2).description_change = t.description_change ∧
    (Transaction.remove t p2).interrupt = t.interrupt ∧
    (Transaction.remove t p2).move = t.move ∧
    (Transaction.remove t p2).new_run = t.new_run ∧
    (Transaction.interrupt t p3).interrupt = t.interrupt ++ [Record.pathRec p3] ∧
    (Transaction.interrupt t p3).description_change = t.description_change ∧
    (Transaction.interrupt t p3).removal = t.removal ∧
    (Transaction.interrupt t p3).move = t.move ∧
    (Transaction.interrupt t p3).new_run = t.new_run ∧
    (Transaction.change_description t p4 fc2 od nd).description_change
        = t.description_change ++ [Record.descChange ⟨p4, fc2, od, nd⟩] ∧
    (Transaction.change_description t p4 fc2 od nd).interrupt = t.interrupt ∧
    (Transaction.change_description t p4 fc2 od nd).removal = t.removal ∧
    (Transaction.change_description t p4 fc2 od nd).move = t.move ∧
    (Transaction.change_description t p4 fc2 od nd).new_run = t.new_run :=
  ⟨rfl, rfl, rfl, rfl, rfl, rfl, rfl, rfl, rfl, rfl, rfl, rfl, rfl, rfl, rfl,
   rfl, rfl, rfl, rfl, rfl, rfl, rfl, rfl, rfl, rfl⟩

/-- C9: every pair of `natural_keys` outputs is comparable: each output
alternates string tokens at even indices and integer tokens at odd indices, so
Python's list comparison of two keys never compares an `int` with a `str` and
never raises a type error. -/
theorem natural_keys_comparable (s t : String) :
    alignedFrom true (natural_keys s) = true ∧
    keyCmpOk (natural_keys s) (natural_keys t) = true :=
  ⟨aligned_natural_keys s,
   keyCmpOk_of_aligned _ true _ (aligned_natural_keys s) (aligned_natural_keys t)⟩

/-- C10: `db.__exit__` runs iff no phase of `__exit__` raised, and the
finalization count is one on the clean path and zero on every error path. -/
theorem db_exit_iff_no_phase_error (b : Kind → SubBehavior) (qs : Kind → List Record) :
    ((transactionExit b qs).dbExited = true ↔ (transactionExit b qs).error = none) ∧
    (transactionExit b qs).events.count Event.dbExitEv =
      (if (transactionExit b qs).error = none then 1 else 0) :=
  ⟨transactionExit_dbExited_iff b qs, transactionExit_count_dbExit b qs⟩
